import Mathlib

/-!
Shallow embedding of the `cmap` concurrent map library (Go) and proofs about it.

The Go sources embedded here are `utils.go` (the BKDR string hash), `errors.go`
(the three error kinds), and `pair.go` (the `pair` node, the `myConcurrentMap`
facade, the default `myPairRedistributor` policy, and the `segment` type).
The `Bucket` implementation and the package-level constants are not part of
the provided sources; those are modelled from the specification and are marked
as such in their doc comments.

Machine integers (`uint64`) are modelled as `Nat` with explicit reduction
modulo `2 ^ 64` at every operation where Go arithmetic can wrap; Go slice
lengths are bounded by the positive `int` range, so doubling a bucket count
cannot wrap and carries no reduction.  The `float64` load factor is modelled
as an exact rational number, and the Go `uint64(...)` truncation of the
non-negative product `average * loadFactor` is modelled as the exact floor,
computed with integer division on the numerator and denominator.  Concurrency
is modelled by sequential interleaving: every operation is a pure state
transformer, mirroring the fact that each segment serializes its mutations
under a mutex.
-/

namespace Cmap

/-- Modelled from the spec: the fixed maximum shard count (`MAX_CONCURRENCY`)
is referenced by §4.5 but its defining source file is not under `src/`; the
spec does not pin its value.  No claim depends on the exact value. -/
def MAX_CONCURRENCY : Nat := 65536

/-- Modelled from the spec: the default bucket count of a fresh segment
(`DEFAULT_BUCKET_NUMBER`); its defining source file is not under `src/` and
the spec does not pin its value.  Claims only need it to be positive. -/
def DEFAULT_BUCKET_NUMBER : Nat := 16

/-- Modelled from the spec: the default load factor
(`DEFAULT_BUCKET_LOAD_FACTOR`, §3 "construction-time, default constant"); its
defining source file is not under `src/`.  Modelled as the exact rational
3/4, built without `Rat` normalization so that it evaluates in the kernel. -/
def DEFAULT_BUCKET_LOAD_FACTOR : Rat := ⟨3, 4, by decide, by decide⟩

/-- Modelled from the spec: the absolute per-bucket maximum size used by
`checkBucketStatus` (§4.3 "an absolute maximum"); its defining source file is
not under `src/` and the spec does not pin its value. -/
def DEFAULT_BUCKET_MAX_SIZE : Nat := 1000

/-- The modulus of Go `uint64` arithmetic, `2 ^ 64`. -/
def UINT64_MOD : Nat := 18446744073709551616

/-- Embeds `hash` from `utils.go` on a byte sequence: the BKDR hash with seed
13131 over the bytes of the key, wrapping at `2 ^ 64`.  The final Go mask
`& 0x7FFFFFFFFFFFFFFF` keeps the low 63 bits, i.e. reduces mod `2 ^ 63`. -/
def hashBytes (bs : List Nat) : Nat :=
  (bs.foldl (fun h b => (h * 13131 + b) % UINT64_MOD) 0) % 9223372036854775808

/-- Embeds `hash` from `utils.go`.  Go iterates over the bytes of the string;
keys are modelled through their Unicode code points, which agree with the Go
bytes on ASCII keys, and every claim needs only that the hash is a fixed
deterministic function of the key. -/
def hash (s : String) : Nat :=
  hashBytes (s.data.map Char.toNat)

/-- Embeds the three error kinds of `errors.go`.  Each carries the formatted
message produced by its `new...Error` constructor. -/
inductive CmapError : Type where
  | illegalParameterError (msg : String)
  | illegalPairTypeError (msg : String)
  | pairRedistributorError (msg : String)
deriving DecidableEq, Repr

/-- Embeds `newIllegalParameterError` from `errors.go`. -/
def newIllegalParameterError (errMsg : String) : CmapError :=
  .illegalParameterError ("concurrency map: illegal parameter: " ++ errMsg)

/-- Embeds `newIllegalPairTypeError` from `errors.go`; the argument is the
`%T`-rendering of the offending pair (`<nil>` for a nil interface value). -/
def newIllegalPairTypeError (typeName : String) : CmapError :=
  .illegalPairTypeError ("concurrency map: illegal pair type: " ++ typeName)

/-- Embeds `newPairRedistributorError` from `errors.go`. -/
def newPairRedistributorError (errMsg : String) : CmapError :=
  .pairRedistributorError ("concurrency map: failing pair redistribution: " ++ errMsg)

/-- Embeds the data of the `pair` struct of `pair.go` as stored in a bucket
chain: the immutable key, its 63-bit hash, and the element.  A `none` element
models a nil `unsafe.Pointer`; pairs created by `newPair` always hold `some`.
The `next` link is represented by the position in the chain list of the
owning bucket (see `Bucket`); `PairNode` below models the link field
explicitly where a claim is about the link itself. -/
structure Pair (α : Type) where
  key : String
  hash : Nat
  element : Option α
deriving DecidableEq, Repr

/-- Embeds `newPair` from `pair.go`: rejects a nil element with an
`IllegalParameterError`, otherwise builds the pair with the hash of the key. -/
def newPair (key : String) (element : Option α) : Except CmapError (Pair α) :=
  match element with
  | none => .error (newIllegalParameterError "element is nil")
  | some _ => .ok ⟨key, hash key, element⟩

/-- Embeds the `pair` struct of `pair.go` with its explicit `next` link, for
the claims about the link operations themselves. -/
inductive PairNode (α : Type) : Type where
  | mk (key : String) (hashValue : Nat) (element : Option α)
      (next : Option (PairNode α))

/-- The `next` field of a `PairNode` (embeds `pair.Next` of `pair.go`). -/
def PairNode.next : PairNode α → Option (PairNode α)
  | .mk _ _ _ n => n

/-- Replaces the `next` field of a `PairNode`, keeping key, hash, element. -/
def PairNode.withNext : PairNode α → Option (PairNode α) → PairNode α
  | .mk k h e _, n => .mk k h e n

/-- Embeds `pair.SetNext` from `pair.go` (lines 96-106).  A `none` argument
models a nil `Pair` interface value: the code first stores a nil link, then
the type assertion `nextPair.(*pair)` on the nil interface fails, so it
returns an `IllegalPairTypeError` even though the link was already updated.
A `some` argument models a non-nil `*pair`, for which the assertion
succeeds. -/
def PairNode.SetNext (p : PairNode α) (nextPair : Option (PairNode α)) :
    PairNode α × Option CmapError :=
  match nextPair with
  | none => (p.withNext none, some (newIllegalPairTypeError "<nil>"))
  | some np => (p.withNext (some np), none)

/-- Modelled from the spec (§4.2): a bucket is one atomic head reference to a
singly linked chain of pairs; the chain is represented as the list of pairs
from the head onward.  The bucket implementation is not under `src/`. -/
structure Bucket (α : Type) where
  chain : List (Pair α)
deriving DecidableEq, Repr

/-- Whether some pair in the chain has the given key. -/
def containsKey : List (Pair α) → String → Bool
  | [], _ => false
  | q :: qs, k => if q.key = k then true else containsKey qs k

/-- The first pair in the chain with the given key, if any. -/
def findKey : List (Pair α) → String → Option (Pair α)
  | [], _ => none
  | q :: qs, k => if q.key = k then some q else findKey qs k

/-- Replaces the element of the first pair with the given key (models the
in-place `setValue` of §4.2/§4.1: key and hash of the node are kept). -/
def replaceKey : List (Pair α) → String → Option α → List (Pair α)
  | [], _, _ => []
  | q :: qs, k, e => if q.key = k then ⟨q.key, q.hash, e⟩ :: qs else q :: replaceKey qs k e

/-- Removes the first pair with the given key, preserving the relative order
of the remaining nodes (models the chain splice of §4.2 `delete`). -/
def removeKey : List (Pair α) → String → List (Pair α)
  | [], _ => []
  | q :: qs, k => if q.key = k then qs else q :: removeKey qs k

/-- Modelled from the spec (§4.2 `firstPair`): the head of the chain. -/
def Bucket.GetFirstPair (b : Bucket α) : Option (Pair α) :=
  b.chain.head?

/-- Modelled from the spec (§4.2 `get`): traversal from the head until key
match or chain end. -/
def Bucket.Get (b : Bucket α) (key : String) : Option (Pair α) :=
  findKey b.chain key

/-- Modelled from the spec (§4.2 `put`): if a node with the same key exists,
its value is replaced in place via `setValue` (which rejects a nil element)
and the result is "not new"; otherwise the pair is prepended as the new head
and the result is "new". -/
def Bucket.Put (b : Bucket α) (p : Pair α) : Bucket α × Bool × Option CmapError :=
  if containsKey b.chain p.key then
    match p.element with
    | none => (b, false, some (newIllegalParameterError "element is nil"))
    | some _ => (⟨replaceKey b.chain p.key p.element⟩, false, none)
  else
    (⟨p :: b.chain⟩, true, none)

/-- Modelled from the spec (§4.2 `delete`): removes the node with the key if
present, reporting whether a node was removed. -/
def Bucket.Delete (b : Bucket α) (key : String) : Bucket α × Bool :=
  if containsKey b.chain key then (⟨removeKey b.chain key⟩, true) else (b, false)

/-- Modelled from the spec (§4.2 `size`): counts the nodes of the chain. -/
def Bucket.size (b : Bucket α) : Nat :=
  b.chain.length

/-- Modelled from the spec (§4.2 `clear`): sets the head to none. -/
def Bucket.Clear (_ : Bucket α) : Bucket α :=
  ⟨[]⟩

/-- Embeds the `BucketStatus` constants of `pair.go`:
`BUCKET_STATUS_NORMAL = 0`, `BUCKET_STATUS_UNDERWEIGHT = 1`,
`BUCKET_STATUS_OVERWEIGHT = 2`. -/
inductive BucketStatus : Type where
  | normal
  | underweight
  | overweight
deriving DecidableEq, Repr

/-- Embeds the `myPairRedistributor` struct of `pair.go`: the load factor,
the upper weight threshold, and the two sampling counters (all `uint64`
except the `float64` load factor, which is modelled as an exact rational). -/
structure MyPairRedistributor : Type where
  loadFactor : Rat
  upperThreshold : Nat
  overweightBucketCount : Nat
  emptyBucketCount : Nat
deriving DecidableEq, Repr, Inhabited

/-- Embeds `myPairRedistributor.UpdateThreshold` from `pair.go` (lines
336-347): `average` is the integer quotient `pairTotal / bucketNumber`
clamped below by 100, and the new threshold is `uint64(average * loadFactor)`.
The Go product is computed in `float64` and truncated; both values involved
are non-negative there, so the truncation is the floor of the exact product,
computed here as Euclidean integer division by the denominator. -/
def MyPairRedistributor.UpdateThreshold (pr : MyPairRedistributor)
    (pairTotal : Nat) (bucketNumber : Nat) : MyPairRedistributor :=
  let average := pairTotal / bucketNumber
  let average := if average < 100 then 100 else average
  { pr with upperThreshold :=
      (((average : Int) * pr.loadFactor.num) / (pr.loadFactor.den : Int)).toNat }

/-- Embeds `newDefaultPairRedistributor` from `pair.go`: a non-positive load
factor falls back to the default, and the threshold is initialized via
`UpdateThreshold 0 bucketNumber`. -/
def newDefaultPairRedistributor (loadFactor : Rat) (bucketNumber : Nat) :
    MyPairRedistributor :=
  let lf := if loadFactor ≤ 0 then DEFAULT_BUCKET_LOAD_FACTOR else loadFactor
  MyPairRedistributor.UpdateThreshold ⟨lf, 0, 0, 0⟩ 0 bucketNumber

/-- Embeds `myPairRedistributor.CheckBucketStatus` from `pair.go` (lines
359-373): a bucket above the absolute maximum or at the upper threshold is
counted and reported overweight; an empty bucket is counted but reported
normal; everything else is normal.  Counter increments wrap like Go
`uint64`. -/
def MyPairRedistributor.CheckBucketStatus (pr : MyPairRedistributor)
    (_pairTotal : Nat) (bucketSize : Nat) : MyPairRedistributor × BucketStatus :=
  if bucketSize > DEFAULT_BUCKET_MAX_SIZE ∨ bucketSize ≥ pr.upperThreshold then
    ({ pr with overweightBucketCount := (pr.overweightBucketCount + 1) % UINT64_MOD },
      .overweight)
  else if bucketSize = 0 then
    ({ pr with emptyBucketCount := (pr.emptyBucketCount + 1) % UINT64_MOD }, .normal)
  else
    (pr, .normal)

/-- Updates the element of a list at one index, leaving the list unchanged
when the index is out of range (models in-place mutation of a Go slice
element). -/
def listUpdate : List β → Nat → (β → β) → List β
  | [], _, _ => []
  | b :: bs, 0, f => f b :: bs
  | b :: bs, n + 1, f => b :: listUpdate bs n f

/-- The concatenation of all chains of a bucket array, in bucket order (the
collection order of the `Redistribe` full scan). -/
def allChains (B : List (Bucket α)) : List (Pair α) :=
  (B.map Bucket.chain).flatten

/-- The reinsertion loop of `myPairRedistributor.Redistribe` (lines 437-444):
every collected pair is put into the bucket selected by `hash % newNumber`. -/
def reinsertPairs (pairs : List (Pair α)) (newNumber : Nat)
    (B : List (Bucket α)) : List (Bucket α) :=
  pairs.foldl (fun bs q => listUpdate bs (q.hash % newNumber) (fun b => (b.Put q).1)) B

/-- The tail of `myPairRedistributor.Redistribe` after the new bucket count
has been decided (lines 407-447): if the count is unchanged the counters are
reset and nothing happens; otherwise all pairs are collected, the bucket
array is cleared and extended (grow) or reallocated (shrink), every pair is
reinserted by `hash % newNumber`, and the counters are reset. -/
def redistributeTo (pr : MyPairRedistributor) (newNumber : Nat)
    (buckets : List (Bucket α)) :
    MyPairRedistributor × Option (List (Bucket α)) × Bool :=
  let currentNumber := buckets.length
  if newNumber = currentNumber then
    ({ pr with overweightBucketCount := 0, emptyBucketCount := 0 }, none, false)
  else
    let pairs := allChains buckets
    let cleared : List (Bucket α) :=
      if newNumber > currentNumber then
        buckets.map Bucket.Clear ++ List.replicate (newNumber - currentNumber) ⟨[]⟩
      else
        List.replicate newNumber ⟨[]⟩
    let newBuckets := reinsertPairs pairs newNumber cleared
    ({ pr with overweightBucketCount := 0, emptyBucketCount := 0 }, some newBuckets, true)

/-- Embeds `myPairRedistributor.Redistribe` from `pair.go` (lines 383-448).
On overweight status the array doubles unless `overweightBucketCount * 4`
(a wrapping `uint64` product) is below the current count; on underweight it
halves with a floor of two buckets, unless the count is below 100 or
`emptyBucketCount * 4` is below it; otherwise nothing happens.  Go slice
lengths fit in a positive `int`, so the doubling cannot wrap. -/
def MyPairRedistributor.Redistribe (pr : MyPairRedistributor)
    (bucketStatus : BucketStatus) (buckets : List (Bucket α)) :
    MyPairRedistributor × Option (List (Bucket α)) × Bool :=
  let currentNumber := buckets.length
  match bucketStatus with
  | .overweight =>
    if pr.overweightBucketCount * 4 % UINT64_MOD < currentNumber then (pr, none, false)
    else redistributeTo pr (currentNumber * 2) buckets
  | .underweight =>
    if currentNumber < 100 ∨ pr.emptyBucketCount * 4 % UINT64_MOD < currentNumber then
      (pr, none, false)
    else
      let newNumber := currentNumber / 2
      redistributeTo pr (if newNumber < 2 then 2 else newNumber) buckets
  | .normal => (pr, none, false)

/-- A policy call either returns normally or faults; a fault models a Go
panic raised inside a (possibly externally supplied) redistribution policy.
The policies modelled here fault without mutating their own state. -/
inductive Outcome (β : Type) : Type where
  | fault (msg : String)
  | ok (val : β)

/-- Embeds the `PairRedistributor` interface of `pair.go` as a bundle of the
three policy operations over an abstract policy state `σ`; each call may
fault (panic). -/
structure PairRedistributor (σ : Type) (α : Type) : Type where
  UpdateThreshold : σ → Nat → Nat → Outcome σ
  CheckBucketStatus : σ → Nat → Nat → Outcome (σ × BucketStatus)
  Redistribe : σ → BucketStatus → List (Bucket α) →
    Outcome (σ × Option (List (Bucket α)) × Bool)

/-- The default policy: the three `myPairRedistributor` methods, which never
panic. -/
def defaultPolicy : PairRedistributor MyPairRedistributor α where
  UpdateThreshold := fun pr pt bn => .ok (pr.UpdateThreshold pt bn)
  CheckBucketStatus := fun pr pt bs =>
    .ok (pr.CheckBucketStatus pt bs)
  Redistribe := fun pr st B => .ok (pr.Redistribe st B)

/-- A policy whose `UpdateThreshold` panics, standing for a faulty
externally-supplied redistributor (the case the `recover` in
`segment.redistribute` exists for). -/
def faultyPolicy : PairRedistributor Unit α where
  UpdateThreshold := fun _ _ _ => .fault "boom"
  CheckBucketStatus := fun s _ _ => .ok (s, .normal)
  Redistribe := fun s _ _ => .ok (s, none, false)

/-- Embeds the `segment` struct of `pair.go`: the bucket array, its cached
length, the live-pair counter, and the state of the segment's redistributor.
The policy operations themselves are passed to each operation as a
`PairRedistributor` bundle. -/
structure Segment (σ : Type) (α : Type) : Type where
  buckets : List (Bucket α)
  bucketsLen : Nat
  pairTotal : Nat
  prState : σ
deriving DecidableEq, Repr, Inhabited

/-- Embeds `segment.redistribute` from `pair.go` (lines 576-595): the three
policy calls run in order; a panic anywhere is recovered and converted to a
`PairRedistributorError` which the function returns, with the policy-state
changes of the completed calls kept; on a changed redistribution the bucket
array and its length are replaced; on the non-panic path the returned error
is nil. -/
def Segment.redistribute (pol : PairRedistributor σ α) (s : Segment σ α)
    (pairTotal : Nat) (bucketSize : Nat) : Segment σ α × Option CmapError :=
  match pol.UpdateThreshold s.prState pairTotal s.bucketsLen with
  | .fault msg => (s, some (newPairRedistributorError msg))
  | .ok st1 =>
    match pol.CheckBucketStatus st1 pairTotal bucketSize with
    | .fault msg => ({ s with prState := st1 }, some (newPairRedistributorError msg))
    | .ok (st2, bucketStatus) =>
      match pol.Redistribe st2 bucketStatus s.buckets with
      | .fault msg => ({ s with prState := st2 }, some (newPairRedistributorError msg))
      | .ok (st3, newBuckets, change) =>
        if change then
          let bs := newBuckets.getD []
          ({ s with prState := st3, buckets := bs, bucketsLen := bs.length }, none)
        else
          ({ s with prState := st3 }, none)

/-- Embeds `segment.Put` from `pair.go` (lines 514-524): the bucket selected
by `hash % bucketsLen` is mutated in place; on a new insertion the live
counter is incremented (wrapping like `AddUint64`) and `redistribute` runs on
the new total and the bucket's new size — its returned error is discarded
(`_ = s.redistribute(...)`); the bucket's own result and error are
returned. -/
def Segment.Put (pol : PairRedistributor σ α) (s : Segment σ α) (p : Pair α) :
    Segment σ α × Bool × Option CmapError :=
  let idx := p.hash % s.bucketsLen
  let r := (s.buckets.getD idx ⟨[]⟩).Put p
  let s1 : Segment σ α := { s with buckets := listUpdate s.buckets idx (fun _ => r.1) }
  if r.2.1 then
    let newTotal := (s1.pairTotal + 1) % UINT64_MOD
    let s2 : Segment σ α := { s1 with pairTotal := newTotal }
    ((Segment.redistribute pol s2 newTotal r.1.size).1, r.2.1, r.2.2)
  else
    (s1, r.2.1, r.2.2)

/-- Embeds `segment.GetWithHash` from `pair.go`: index the bucket array by
`keyHash % bucketsLen` (under a momentary lock) and scan that bucket. -/
def Segment.GetWithHash (s : Segment σ α) (key : String) (keyHash : Nat) :
    Option (Pair α) :=
  (s.buckets.getD (keyHash % s.bucketsLen) ⟨[]⟩).Get key

/-- Embeds `segment.Get` from `pair.go`. -/
def Segment.Get (s : Segment σ α) (key : String) : Option (Pair α) :=
  s.GetWithHash key (hash key)

/-- Embeds `segment.Delete` from `pair.go` (lines 542-552): the bucket
selected by `hash(key) % bucketsLen` is mutated in place; on a removal the
live counter is decremented (`AddUint64` with `^uint64(0)`, i.e. a wrapping
subtraction of one) and `redistribute` runs, its error again discarded. -/
def Segment.Delete (pol : PairRedistributor σ α) (s : Segment σ α) (key : String) :
    Segment σ α × Bool :=
  let idx := hash key % s.bucketsLen
  let r := (s.buckets.getD idx ⟨[]⟩).Delete key
  let s1 : Segment σ α := { s with buckets := listUpdate s.buckets idx (fun _ => r.1) }
  if r.2 then
    let newTotal := (s1.pairTotal + (UINT64_MOD - 1)) % UINT64_MOD
    let s2 : Segment σ α := { s1 with pairTotal := newTotal }
    ((Segment.redistribute pol s2 newTotal r.1.size).1, true)
  else
    (s1, false)

/-- Embeds `segment.Size` from `pair.go`. -/
def Segment.Size (s : Segment σ α) : Nat :=
  s.pairTotal

/-- Embeds `newSegment` from `pair.go` after its argument defaulting: a
segment with `bucketNumber` fresh buckets and the given redistributor
state (callers pass a positive bucket count; `newSegment` replaces a
non-positive one with `DEFAULT_BUCKET_NUMBER`). -/
def newSegmentWith (bucketNumber : Nat) (prState : σ) : Segment σ α :=
  { buckets := List.replicate bucketNumber ⟨[]⟩
    bucketsLen := bucketNumber
    pairTotal := 0
    prState := prState }

/-- Embeds the `myConcurrentMap` struct of `pair.go`: the fixed concurrency,
the segment array, and the global live counter. -/
structure ConcurrentMap (σ : Type) (α : Type) : Type where
  concurrency : Nat
  segments : List (Segment σ α)
  total : Nat
deriving DecidableEq, Repr, Inhabited

/-- Embeds `myConcurrentMap.findSegment` from `pair.go` (lines 259-270),
reduced to the index it selects.  With one shard the first segment is used
directly.  Otherwise the code declares `var keyHash32 uint32` (zero valued)
and then assigns `keyHash32` from `keyHash32` itself in both branches — not
from the `keyHash` parameter — and finally reduces the high 16 bits modulo
`concurrency - 1`. -/
def findSegmentIndex (concurrency : Nat) (keyHash : Nat) : Nat :=
  if concurrency = 1 then 0
  else
    let keyHash32 : Nat := 0
    let keyHash32 :=
      if keyHash > 4294967295 then (keyHash32 >>> 32) % 4294967296
      else keyHash32 % 4294967296
    (keyHash32 >>> 16) % (concurrency - 1)

/-- Embeds `myConcurrentMap.Put` from `pair.go` (lines 208-219): build the
pair (rejecting a nil element), route to the segment, delegate, and on a new
insertion increment the global counter. -/
def ConcurrentMap.Put [Inhabited σ] (pol : PairRedistributor σ α)
    (cmap : ConcurrentMap σ α) (key : String) (element : Option α) :
    ConcurrentMap σ α × Bool × Option CmapError :=
  match newPair key element with
  | .error err => (cmap, false, some err)
  | .ok p =>
    let idx := findSegmentIndex cmap.concurrency p.hash
    let r := Segment.Put pol (cmap.segments.getD idx default) p
    ({ cmap with
        segments := listUpdate cmap.segments idx (fun _ => r.1)
        total := if r.2.1 then (cmap.total + 1) % UINT64_MOD else cmap.total },
      r.2.1, r.2.2)

/-- Embeds `myConcurrentMap.Get` from `pair.go` (lines 223-231): hash the
key, route, delegate to `GetWithHash`, and return the found pair's element
(nil when the key is absent). -/
def ConcurrentMap.Get [Inhabited σ] (cmap : ConcurrentMap σ α) (key : String) :
    Option α :=
  let keyHash := hash key
  let s := cmap.segments.getD (findSegmentIndex cmap.concurrency keyHash) default
  match s.GetWithHash key keyHash with
  | none => none
  | some p => p.element

/-- Embeds `myConcurrentMap.Delete` from `pair.go` (lines 235-242): route,
delegate, and on a removal decrement the global counter (a wrapping
`AddUint64` with `^uint64(0)`). -/
def ConcurrentMap.Delete [Inhabited σ] (pol : PairRedistributor σ α)
    (cmap : ConcurrentMap σ α) (key : String) : ConcurrentMap σ α × Bool :=
  let idx := findSegmentIndex cmap.concurrency (hash key)
  let r := Segment.Delete pol (cmap.segments.getD idx default) key
  if r.2 then
    ({ cmap with
        segments := listUpdate cmap.segments idx (fun _ => r.1)
        total := (cmap.total + (UINT64_MOD - 1)) % UINT64_MOD }, true)
  else
    ({ cmap with segments := listUpdate cmap.segments idx (fun _ => r.1) }, false)

/-- Embeds `myConcurrentMap.Len` from `pair.go`. -/
def ConcurrentMap.Len (cmap : ConcurrentMap σ α) : Nat :=
  cmap.total

/-- The body of `NewConcurrentMap` after validation, with the default
redistributor (`pairRedistributor == nil`): `concurrency` segments, each with
`DEFAULT_BUCKET_NUMBER` buckets and its own freshly initialized default
redistributor. -/
def mkConcurrentMap (α : Type) (concurrency : Nat) :
    ConcurrentMap MyPairRedistributor α :=
  { concurrency := concurrency
    segments := List.replicate concurrency
      (newSegmentWith DEFAULT_BUCKET_NUMBER
        (newDefaultPairRedistributor DEFAULT_BUCKET_LOAD_FACTOR DEFAULT_BUCKET_NUMBER))
    total := 0 }

/-- Embeds `NewConcurrentMap` from `pair.go` (lines 183-197) with a nil
redistributor argument: a non-positive or too large concurrency is rejected
with an `IllegalParameterError`. -/
def NewConcurrentMap (α : Type) (concurrency : Int) :
    Except CmapError (ConcurrentMap MyPairRedistributor α) :=
  if concurrency ≤ 0 then .error (newIllegalParameterError "concurrency is too small")
  else if concurrency > (MAX_CONCURRENCY : Int) then
    .error (newIllegalParameterError "concurrency is too large")
  else .ok (mkConcurrentMap α concurrency.toNat)

/-- A sequential segment-level operation, for stating properties of runs. -/
inductive SegOp (α : Type) : Type where
  | put (key : String) (value : α)
  | del (key : String)

/-- Runs a list of operations on a segment with the default policy; `put`
builds its pair exactly as `myConcurrentMap.Put` does via `newPair`. -/
def runSegOps (s : Segment MyPairRedistributor α) (ops : List (SegOp α)) :
    Segment MyPairRedistributor α :=
  ops.foldl
    (fun s op =>
      match op with
      | .put k v => (Segment.Put defaultPolicy s ⟨k, hash k, some v⟩).1
      | .del k => (Segment.Delete defaultPolicy s k).1)
    s

/-- The keys of a list of pairs, in order. -/
def keysOf (l : List (Pair α)) : List String :=
  l.map Pair.key

/-- Positional coherence of a bucket array with respect to a bucket count
`n`: every pair sits in the bucket its hash selects, and its hash is the
hash of its key. -/
def bucketsWF (n : Nat) (B : List (Bucket α)) : Prop :=
  ∀ i < B.length, ∀ p ∈ (B.getD i ⟨[]⟩).chain,
    p.hash % n = i ∧ p.hash = hash p.key

/-- Well-formedness of a segment: the cached length is the array length and
positive, the array is positionally coherent, and keys are unique across the
whole segment. -/
def Segment.WF (s : Segment σ α) : Prop :=
  s.bucketsLen = s.buckets.length ∧ 0 < s.bucketsLen ∧
    bucketsWF s.bucketsLen s.buckets ∧ (keysOf (allChains s.buckets)).Nodup

/-- Well-formedness of a map: a positive concurrency matching the segment
array length, with every segment well-formed. -/
def ConcurrentMap.WF (m : ConcurrentMap σ α) : Prop :=
  0 < m.concurrency ∧ m.segments.length = m.concurrency ∧ ∀ s ∈ m.segments, s.WF

instance (n : Nat) (B : List (Bucket α)) : Decidable (bucketsWF n B) := by
  unfold bucketsWF; infer_instance

instance (s : Segment σ α) : Decidable s.WF := by
  unfold Segment.WF; infer_instance

instance (m : ConcurrentMap σ α) : Decidable m.WF := by
  unfold ConcurrentMap.WF; infer_instance

/-! ### Generic list helpers -/

theorem listUpdate_length {β : Type} (B : List β) (i : Nat) (f : β → β) :
    (listUpdate B i f).length = B.length := by
  induction B generalizing i with
  | nil => rfl
  | cons b bs ih =>
    cases i with
    | zero => rfl
    | succ n => simpa [listUpdate] using ih n

theorem listUpdate_split {β : Type} (d : β) (B : List β) (i : Nat)
    (h : i < B.length) :
    ∃ B1 B2, B1.length = i ∧ B = B1 ++ B.getD i d :: B2 ∧
      ∀ f, listUpdate B i f = B1 ++ f (B.getD i d) :: B2 := by
  induction B generalizing i with
  | nil => simp at h
  | cons b bs ih =>
    cases i with
    | zero => exact ⟨[], bs, rfl, by simp, fun f => rfl⟩
    | succ n =>
      obtain ⟨B1, B2, hlen, hdec, hupd⟩ := ih n (by simpa using h)
      refine ⟨b :: B1, B2, by simp [hlen], ?_, ?_⟩
      · simpa [List.getD_cons_succ] using congrArg (b :: ·) hdec
      · intro f
        simpa [listUpdate, List.getD_cons_succ] using congrArg (b :: ·) (hupd f)

theorem getD_append_ge {β : Type} (d : β) (l1 l2 : List β) (j : Nat)
    (h : l1.length ≤ j) : (l1 ++ l2).getD j d = l2.getD (j - l1.length) d := by
  induction l1 generalizing j with
  | nil => simp
  | cons x xs ih =>
    cases j with
    | zero => simp at h
    | succ n => simpa [List.getD_cons_succ] using ih n (by simpa using h)

/-! ### Chain search helpers -/

theorem keysOf_nil : keysOf ([] : List (Pair α)) = [] := rfl

theorem keysOf_cons (p : Pair α) (l : List (Pair α)) :
    keysOf (p :: l) = p.key :: keysOf l := rfl

theorem keysOf_append (l1 l2 : List (Pair α)) :
    keysOf (l1 ++ l2) = keysOf l1 ++ keysOf l2 := by
  simp [keysOf]

theorem mem_keysOf_of_mem {p : Pair α} {l : List (Pair α)} (hp : p ∈ l) :
    p.key ∈ keysOf l :=
  List.mem_map_of_mem Pair.key hp

theorem containsKey_eq_false_iff (l : List (Pair α)) (k : String) :
    containsKey l k = false ↔ ∀ p ∈ l, p.key ≠ k := by
  induction l with
  | nil => simp [containsKey]
  | cons q qs ih =>
    by_cases hq : q.key = k
    · simp [containsKey, hq]
    · simp [containsKey, hq, ih]

theorem containsKey_eq_true_iff (l : List (Pair α)) (k : String) :
    containsKey l k = true ↔ ∃ p ∈ l, p.key = k := by
  induction l with
  | nil => simp [containsKey]
  | cons q qs ih =>
    by_cases hq : q.key = k
    · constructor
      · intro _
        exact ⟨q, List.mem_cons_self q qs, hq⟩
      · intro _
        rw [containsKey, if_pos hq]
    · rw [containsKey, if_neg hq, ih]
      constructor
      · rintro ⟨p, hp, hpk⟩
        exact ⟨p, List.mem_cons_of_mem q hp, hpk⟩
      · rintro ⟨p, hp, hpk⟩
        rcases List.mem_cons.mp hp with h1 | h2
        · exact absurd (h1 ▸ hpk) hq
        · exact ⟨p, h2, hpk⟩

theorem findKey_eq_none_iff (l : List (Pair α)) (k : String) :
    findKey l k = none ↔ ∀ p ∈ l, p.key ≠ k := by
  induction l with
  | nil => simp [findKey]
  | cons q qs ih =>
    by_cases hq : q.key = k
    · simp [findKey, hq]
    · simp [findKey, hq, ih]

theorem findKey_eq_some {l : List (Pair α)} {k : String} {p : Pair α}
    (h : findKey l k = some p) : p ∈ l ∧ p.key = k := by
  induction l with
  | nil => simp [findKey] at h
  | cons q qs ih =>
    by_cases hq : q.key = k
    · rw [findKey, if_pos hq] at h
      cases h
      exact ⟨List.mem_cons_self _ _, hq⟩
    · rw [findKey, if_neg hq] at h
      obtain ⟨hmem, hkey⟩ := ih h
      exact ⟨List.mem_cons_of_mem q hmem, hkey⟩

theorem findKey_append (l1 l2 : List (Pair α)) (k : String)
    (h : findKey l1 k = none) : findKey (l1 ++ l2) k = findKey l2 k := by
  induction l1 with
  | nil => rfl
  | cons q qs ih =>
    by_cases hq : q.key = k
    · rw [findKey, if_pos hq] at h
      cases h
    · rw [findKey, if_neg hq] at h
      simpa [findKey, hq] using ih h

theorem nodup_keys_unique {l : List (Pair α)} {p q : Pair α}
    (h : (keysOf l).Nodup) (hp : p ∈ l) (hq : q ∈ l) (hk : p.key = q.key) :
    p = q := by
  induction l with
  | nil => simp at hp
  | cons x xs ih =>
    rw [keysOf_cons, List.nodup_cons] at h
    rcases List.mem_cons.mp hp with hpx | hpxs
    · rcases List.mem_cons.mp hq with hqx | hqxs
      · rw [hpx, hqx]
      · have hx : x.key ∈ keysOf xs := by
          rw [← hpx, hk]
          exact mem_keysOf_of_mem hqxs
        exact absurd hx h.1
    · rcases List.mem_cons.mp hq with hqx | hqxs
      · have hx : x.key ∈ keysOf xs := by
          rw [← hqx, ← hk]
          exact mem_keysOf_of_mem hpxs
        exact absurd hx h.1
      · exact ih h.2 hpxs hqxs

theorem findKey_of_mem_nodup {l : List (Pair α)} {p : Pair α} {k : String}
    (h : (keysOf l).Nodup) (hp : p ∈ l) (hk : p.key = k) :
    findKey l k = some p := by
  induction l with
  | nil => simp at hp
  | cons q qs ih =>
    rw [keysOf_cons, List.nodup_cons] at h
    rcases List.mem_cons.mp hp with hpq | hpqs
    · subst hpq
      rw [findKey, if_pos hk]
    · have hq : q.key ≠ k := by
        intro hqk
        have hx : q.key ∈ keysOf qs := by
          rw [hqk, ← hk]
          exact mem_keysOf_of_mem hpqs
        exact h.1 hx
      rw [findKey, if_neg hq]
      exact ih h.2 hpqs

theorem findKey_perm {l l2 : List (Pair α)} {k : String}
    (h : (keysOf l).Nodup) (hperm : l.Perm l2) :
    findKey l k = findKey l2 k := by
  cases hfk : findKey l k with
  | none =>
    refine ((findKey_eq_none_iff l2 k).mpr ?_).symm
    intro p hp
    exact (findKey_eq_none_iff l k).mp hfk p (hperm.symm.subset hp)
  | some p =>
    obtain ⟨hmem, hkey⟩ := findKey_eq_some hfk
    have h2 : (keysOf l2).Nodup := (hperm.map Pair.key).nodup h
    exact (findKey_of_mem_nodup h2 (hperm.subset hmem) hkey).symm

/-! ### `allChains` helpers -/

theorem allChains_nil : allChains ([] : List (Bucket α)) = [] := rfl

theorem allChains_cons (b : Bucket α) (B : List (Bucket α)) :
    allChains (b :: B) = b.chain ++ allChains B := rfl

theorem allChains_append (B1 B2 : List (Bucket α)) :
    allChains (B1 ++ B2) = allChains B1 ++ allChains B2 := by
  simp [allChains]

theorem allChains_eq_nil {B : List (Bucket α)} (h : ∀ b ∈ B, b.chain = []) :
    allChains B = [] := by
  induction B with
  | nil => rfl
  | cons b bs ih =>
    rw [allChains_cons, h b (List.mem_cons_self b bs),
      ih (fun x hx => h x (List.mem_cons_of_mem b hx))]
    rfl

theorem mem_allChains_of_mem_chain {B : List (Bucket α)} {i : Nat} {p : Pair α}
    (h : i < B.length) (hp : p ∈ (B.getD i ⟨[]⟩).chain) : p ∈ allChains B := by
  induction B generalizing i with
  | nil => simp at h
  | cons b bs ih =>
    rw [allChains_cons, List.mem_append]
    cases i with
    | zero => exact Or.inl (by simpa using hp)
    | succ n =>
      exact Or.inr (ih (by simpa using h) (by simpa [List.getD_cons_succ] using hp))

theorem mem_allChains {B : List (Bucket α)} {p : Pair α}
    (hp : p ∈ allChains B) : ∃ i, i < B.length ∧ p ∈ (B.getD i ⟨[]⟩).chain := by
  induction B with
  | nil => simp [allChains_nil] at hp
  | cons b bs ih =>
    rw [allChains_cons, List.mem_append] at hp
    rcases hp with hb | hbs
    · exact ⟨0, by simp, by simpa using hb⟩
    · obtain ⟨i, hi, hmem⟩ := ih hbs
      exact ⟨i + 1, by simpa using hi, by simpa [List.getD_cons_succ] using hmem⟩

/-! ### `replaceKey` and `removeKey` helpers -/

theorem keysOf_replaceKey (l : List (Pair α)) (k : String) (e : Option α) :
    keysOf (replaceKey l k e) = keysOf l := by
  induction l with
  | nil => rfl
  | cons q qs ih =>
    by_cases hq : q.key = k
    · simp [replaceKey, hq, keysOf_cons]
    · simp [replaceKey, hq, keysOf_cons, ih]

theorem replaceKey_pres {l : List (Pair α)} {k : String} {e : Option α}
    (P : Pair α → Prop) (hP : ∀ q ∈ l, P q)
    (hrep : ∀ q : Pair α, P q → P ⟨q.key, q.hash, e⟩) :
    ∀ p ∈ replaceKey l k e, P p := by
  induction l with
  | nil => simp [replaceKey]
  | cons q qs ih =>
    by_cases hq : q.key = k
    · rw [replaceKey, if_pos hq]
      intro p hp
      rcases List.mem_cons.mp hp with hpq | hpqs
      · exact hpq ▸ hrep q (hP q (List.mem_cons_self q qs))
      · exact hP p (List.mem_cons_of_mem q hpqs)
    · rw [replaceKey, if_neg hq]
      intro p hp
      rcases List.mem_cons.mp hp with hpq | hpqs
      · exact hpq ▸ hP q (List.mem_cons_self q qs)
      · exact ih (fun x hx => hP x (List.mem_cons_of_mem q hx)) p hpqs

theorem findKey_replaceKey_self {l : List (Pair α)} {k : String} {e : Option α}
    (h : containsKey l k = true) :
    ∃ q ∈ l, q.key = k ∧ findKey (replaceKey l k e) k = some ⟨q.key, q.hash, e⟩ := by
  induction l with
  | nil => simp [containsKey] at h
  | cons q qs ih =>
    by_cases hq : q.key = k
    · exact ⟨q, List.mem_cons_self q qs, hq, by simp [replaceKey, hq, findKey]⟩
    · rw [containsKey, if_neg hq] at h
      obtain ⟨x, hx, hxk, hfind⟩ := ih h
      exact ⟨x, List.mem_cons_of_mem q hx, hxk,
        by simpa [replaceKey, hq, findKey] using hfind⟩

theorem removeKey_sublist (l : List (Pair α)) (k : String) :
    (removeKey l k).Sublist l := by
  induction l with
  | nil => simp [removeKey]
  | cons q qs ih =>
    by_cases hq : q.key = k
    · rw [removeKey, if_pos hq]
      exact (List.sublist_cons_self q qs)
    · rw [removeKey, if_neg hq]
      exact ih.cons₂ q

/-! ### Positional coherence and redistribution helpers -/

theorem bucketsWF_update {n : Nat} {B : List (Bucket α)} {i : Nat}
    {f : Bucket α → Bucket α} (hwf : bucketsWF n B) (hi : i < B.length)
    (hf : ∀ p ∈ (f (B.getD i ⟨[]⟩)).chain, p.hash % n = i ∧ p.hash = hash p.key) :
    bucketsWF n (listUpdate B i f) := by
  obtain ⟨B1, B2, hB1, hdec, hupd⟩ := listUpdate_split ⟨[]⟩ B i hi
  have hBlen : B.length = B1.length + (B2.length + 1) := by
    rw [hdec]
    simp
  intro j hj p hp
  rw [hupd f] at hj hp
  rcases Nat.lt_trichotomy j i with hlt | heq | hgt
  · rw [List.getD_append _ _ _ j (by omega)] at hp
    have horig : (B.getD j ⟨[]⟩).chain = (B1.getD j ⟨[]⟩).chain := by
      rw [hdec, List.getD_append _ _ _ j (by omega)]
    exact hwf j (by omega) p (by rw [horig]; exact hp)
  · subst heq
    rw [getD_append_ge _ _ _ j (by omega), hB1, Nat.sub_self,
      List.getD_cons_zero] at hp
    exact hf p hp
  · have hj2 : j < B.length := by
      simp only [List.length_append, List.length_cons] at hj
      omega
    obtain ⟨m, hm⟩ : ∃ m, j - B1.length = m + 1 := ⟨j - B1.length - 1, by omega⟩
    rw [getD_append_ge _ _ _ j (by omega), hm, List.getD_cons_succ] at hp
    have horig : (B.getD j ⟨[]⟩).chain = (B2.getD m ⟨[]⟩).chain := by
      rw [hdec, getD_append_ge _ _ _ j (by omega), hm, List.getD_cons_succ]
    exact hwf j hj2 p (by rw [horig]; exact hp)

theorem allChains_update_cons {B : List (Bucket α)} {i : Nat} {p : Pair α}
    {f : Bucket α → Bucket α} (hi : i < B.length)
    (hf : (f (B.getD i ⟨[]⟩)).chain = p :: (B.getD i ⟨[]⟩).chain) :
    (allChains (listUpdate B i f)).Perm (p :: allChains B) := by
  obtain ⟨B1, B2, hB1, hdec, hupd⟩ := listUpdate_split ⟨[]⟩ B i hi
  have h1 : allChains (listUpdate B i f) =
      allChains B1 ++ (p :: ((B.getD i ⟨[]⟩).chain ++ allChains B2)) := by
    rw [hupd f, allChains_append, allChains_cons, hf]
    simp
  have h2 : allChains B = allChains B1 ++ ((B.getD i ⟨[]⟩).chain ++ allChains B2) := by
    conv in allChains B => rw [hdec]
    rw [allChains_append, allChains_cons]
  rw [h1, h2]
  exact List.perm_middle

theorem reinsertPairs_spec {n : Nat} (hn : 0 < n) (pairs : List (Pair α)) :
    ∀ B : List (Bucket α),
      B.length = n →
      bucketsWF n B →
      (∀ q ∈ pairs, q.hash = hash q.key) →
      (keysOf pairs).Nodup →
      (∀ q ∈ pairs, containsKey (allChains B) q.key = false) →
      (reinsertPairs pairs n B).length = n ∧
        bucketsWF n (reinsertPairs pairs n B) ∧
        (allChains (reinsertPairs pairs n B)).Perm (pairs ++ allChains B) := by
  induction pairs with
  | nil =>
    intro B h1 h2 _ _ _
    exact ⟨h1, h2, by simp [reinsertPairs]⟩
  | cons q qs ih =>
    intro B hlen hwf hcoh hnd hdisj
    have hi : q.hash % n < B.length := by
      rw [hlen]
      exact Nat.mod_lt _ hn
    have hnotin : containsKey (B.getD (q.hash % n) ⟨[]⟩).chain q.key = false := by
      rw [containsKey_eq_false_iff]
      intro p hp hpk
      have hq := hdisj q (List.mem_cons_self _ _)
      rw [containsKey_eq_false_iff] at hq
      exact hq p (mem_allChains_of_mem_chain hi hp) hpk
    have hput : ((B.getD (q.hash % n) ⟨[]⟩).Put q).1 =
        ⟨q :: (B.getD (q.hash % n) ⟨[]⟩).chain⟩ := by
      rw [Bucket.Put, if_neg (by simpa using hnotin)]
    have hstep : reinsertPairs (q :: qs) n B =
        reinsertPairs qs n (listUpdate B (q.hash % n) (fun b => (b.Put q).1)) := rfl
    have hperm1 : (allChains (listUpdate B (q.hash % n) (fun b => (b.Put q).1))).Perm
        (q :: allChains B) :=
      allChains_update_cons hi (by rw [hput])
    rw [keysOf_cons, List.nodup_cons] at hnd
    have hres := ih (listUpdate B (q.hash % n) (fun b => (b.Put q).1))
      (by rw [listUpdate_length, hlen])
      (bucketsWF_update hwf hi (by
        rw [hput]
        intro p hp
        rcases List.mem_cons.mp hp with hpq | hpb
        · subst hpq
          exact ⟨rfl, hcoh _ (List.mem_cons_self _ _)⟩
        · exact hwf (q.hash % n) hi p hpb))
      (fun r hr => hcoh r (List.mem_cons_of_mem q hr))
      hnd.2
      (by
        intro r hr
        rw [containsKey_eq_false_iff]
        intro p hp hpk
        have hp2 : p ∈ q :: allChains B := hperm1.subset hp
        rcases List.mem_cons.mp hp2 with hpq | hpB
        · subst hpq
          exact hnd.1 (hpk ▸ mem_keysOf_of_mem hr)
        · have hq := hdisj r (List.mem_cons_of_mem q hr)
          rw [containsKey_eq_false_iff] at hq
          exact hq p hpB hpk)
    refine ⟨by rw [hstep]; exact hres.1, by rw [hstep]; exact hres.2.1, ?_⟩
    rw [hstep]
    refine hres.2.2.trans ?_
    refine ((List.Perm.append_left qs hperm1).trans ?_)
    exact List.perm_middle

theorem getD_mem {β : Type} {l : List β} {i : Nat} (d : β) (h : i < l.length) :
    l.getD i d ∈ l := by
  induction l generalizing i with
  | nil => simp at h
  | cons x xs ih =>
    cases i with
    | zero => exact List.mem_cons_self _ _
    | succ n =>
      rw [List.getD_cons_succ]
      exact List.mem_cons_of_mem x (ih (by simpa using h))

theorem allChains_coh {n : Nat} {B : List (Bucket α)} (hwfB : bucketsWF n B) :
    ∀ q ∈ allChains B, q.hash = hash q.key := by
  intro q hq
  obtain ⟨i, hi, hmem⟩ := mem_allChains hq
  exact (hwfB i hi q hmem).2

theorem redistributeTo_resize {pr : MyPairRedistributor} {newNumber : Nat}
    {B : List (Bucket α)} (hne : newNumber ≠ B.length) (hpos : 0 < newNumber)
    (hcoh : ∀ q ∈ allChains B, q.hash = hash q.key)
    (hnd : (keysOf (allChains B)).Nodup) :
    ∃ B2, redistributeTo pr newNumber B =
        ({ pr with overweightBucketCount := 0, emptyBucketCount := 0 }, some B2, true) ∧
      B2.length = newNumber ∧ bucketsWF newNumber B2 ∧
      (allChains B2).Perm (allChains B) := by
  set cleared : List (Bucket α) :=
    if newNumber > B.length then
      B.map Bucket.Clear ++ List.replicate (newNumber - B.length) ⟨[]⟩
    else
      List.replicate newNumber ⟨[]⟩ with hC
  have hclr : ∀ b ∈ cleared, b.chain = [] := by
    intro b hb
    rw [hC] at hb
    split at hb
    · rcases List.mem_append.mp hb with h1 | h2
      · obtain ⟨x, _, hx⟩ := List.mem_map.mp h1
        rw [← hx]
        rfl
      · rw [List.eq_of_mem_replicate h2]
    · rw [List.eq_of_mem_replicate hb]
  have hclen : cleared.length = newNumber := by
    rw [hC]
    split
    · simp only [List.length_append, List.length_map, List.length_replicate]
      omega
    · simp
  have hchains : allChains cleared = [] := allChains_eq_nil hclr
  have hwfC : bucketsWF newNumber cleared := by
    intro i hi p hp
    rw [hclr _ (getD_mem ⟨[]⟩ hi)] at hp
    simp at hp
  obtain ⟨h1, h2, h3⟩ := reinsertPairs_spec hpos (allChains B) cleared hclen hwfC
    hcoh hnd (by
      intro q _
      rw [hchains]
      rfl)
  refine ⟨reinsertPairs (allChains B) newNumber cleared, ?_, h1, h2, by simpa [hchains] using h3⟩
  rw [redistributeTo]
  simp only [if_neg hne]

theorem Redistribe_spec {pr : MyPairRedistributor} {st : BucketStatus}
    {B : List (Bucket α)}
    (hcoh : ∀ q ∈ allChains B, q.hash = hash q.key)
    (hnd : (keysOf (allChains B)).Nodup) :
    ((pr.Redistribe st B).2.2 = false ∧ (pr.Redistribe st B).2.1 = none) ∨
      ∃ B2, (pr.Redistribe st B).2.1 = some B2 ∧ (pr.Redistribe st B).2.2 = true ∧
        0 < B2.length ∧ bucketsWF B2.length B2 ∧
        (allChains B2).Perm (allChains B) := by
  cases st with
  | normal => exact Or.inl ⟨rfl, rfl⟩
  | overweight =>
    rw [MyPairRedistributor.Redistribe]
    split
    · exact Or.inl ⟨rfl, rfl⟩
    · by_cases h0 : B.length = 0
      · rw [redistributeTo, if_pos (by omega)]
        exact Or.inl ⟨rfl, rfl⟩
      · obtain ⟨B2, heq, hlen2, hwf2, hperm⟩ :=
          @redistributeTo_resize _ pr (B.length * 2) B (by omega) (by omega) hcoh hnd
        rw [heq]
        exact Or.inr ⟨B2, rfl, rfl, by omega, by rw [hlen2]; exact hwf2, hperm⟩
  | underweight =>
    rw [MyPairRedistributor.Redistribe]
    split
    · exact Or.inl ⟨rfl, rfl⟩
    · rename_i hcond
      have h100 : 100 ≤ B.length := by
        by_contra hlt
        exact hcond (Or.inl (by omega))
      have hif : (if B.length / 2 < 2 then 2 else B.length / 2) = B.length / 2 :=
        if_neg (by omega)
      dsimp only
      rw [hif]
      obtain ⟨B2, heq, hlen2, hwf2, hperm⟩ :=
        @redistributeTo_resize _ pr (B.length / 2) B (by omega) (by omega) hcoh hnd
      rw [heq]
      exact Or.inr ⟨B2, rfl, rfl, by omega, by rw [hlen2]; exact hwf2, hperm⟩

theorem redistribute_default_spec (s : Segment MyPairRedistributor α)
    (hlen : s.bucketsLen = s.buckets.length) (hpos : 0 < s.bucketsLen)
    (hwfB : bucketsWF s.bucketsLen s.buckets)
    (hnd : (keysOf (allChains s.buckets)).Nodup) (pt bs : Nat) :
    (Segment.redistribute defaultPolicy s pt bs).1.WF ∧
      (allChains (Segment.redistribute defaultPolicy s pt bs).1.buckets).Perm
        (allChains s.buckets) ∧
      (Segment.redistribute defaultPolicy s pt bs).1.pairTotal = s.pairTotal ∧
      (Segment.redistribute defaultPolicy s pt bs).2 = none := by
  have hcoh : ∀ q ∈ allChains s.buckets, q.hash = hash q.key := by
    intro q hq
    obtain ⟨i, hi, hmem⟩ := mem_allChains hq
    exact (hwfB i (by omega) q hmem).2
  have hwfB2 : bucketsWF s.buckets.length s.buckets := by rw [← hlen]; exact hwfB
  rcases hrd : (s.prState.UpdateThreshold pt s.bucketsLen).CheckBucketStatus pt bs with
    ⟨st2, status⟩
  rcases hrb : st2.Redistribe status s.buckets with ⟨st3, nb, ch⟩
  have hspec := @Redistribe_spec _ st2 status s.buckets hcoh hnd
  rw [hrb] at hspec
  simp only [Segment.redistribute, defaultPolicy, hrd, hrb]
  rcases hspec with ⟨hf, -⟩ | ⟨B2, hsome, htrue, hposB, hwfN, hperm⟩
  · dsimp only at hf ⊢
    rw [hf]
    simp only [if_neg (by simp : ¬ (false = true))]
    refine ⟨⟨hlen, hpos, hwfB, hnd⟩, List.Perm.refl _, ?_, ?_⟩ <;> first | rfl | trivial
  · dsimp only at htrue hsome ⊢
    rw [htrue, hsome]
    simp only [if_pos rfl, Option.getD_some]
    refine ⟨⟨rfl, hposB, ?_, ?_⟩, hperm, rfl, rfl⟩
    · exact hwfN
    · exact ((hperm.map Pair.key).symm).nodup hnd

/-! ### Segment-level lemmas -/

theorem findKey_append_some {l1 l2 : List (Pair α)} {k : String} {p : Pair α}
    (h : findKey l1 k = some p) : findKey (l1 ++ l2) k = some p := by
  induction l1 with
  | nil => simp [findKey] at h
  | cons q qs ih =>
    by_cases hq : q.key = k
    · rw [findKey, if_pos hq] at h
      rw [List.cons_append, findKey, if_pos hq]
      exact h
    · rw [findKey, if_neg hq] at h
      rw [List.cons_append, findKey, if_neg hq]
      exact ih h

theorem getD_listUpdate_self {β : Type} (d : β) (l : List β) (i : Nat)
    (f : β → β) (h : i < l.length) :
    (listUpdate l i f).getD i d = f (l.getD i d) := by
  induction l generalizing i with
  | nil => simp at h
  | cons x xs ih =>
    cases i with
    | zero => rfl
    | succ n =>
      rw [listUpdate, List.getD_cons_succ, List.getD_cons_succ]
      exact ih n (by simpa using h)

theorem allChains_update_congr_keys {B : List (Bucket α)} {i : Nat}
    {f : Bucket α → Bucket α} (hi : i < B.length)
    (hk : keysOf (f (B.getD i ⟨[]⟩)).chain = keysOf (B.getD i ⟨[]⟩).chain) :
    keysOf (allChains (listUpdate B i f)) = keysOf (allChains B) := by
  obtain ⟨B1, B2, hB1, hdec, hupd⟩ := listUpdate_split ⟨[]⟩ B i hi
  rw [hupd f]
  conv_rhs => rw [hdec]
  rw [allChains_append, allChains_cons, allChains_append, allChains_cons,
    keysOf_append, keysOf_append, keysOf_append, keysOf_append, hk]

theorem GetWithHash_eq_findKey (s : Segment σ α)
    (hlen : s.bucketsLen = s.buckets.length) (hpos : 0 < s.bucketsLen)
    (hwfB : bucketsWF s.bucketsLen s.buckets)
    (hnd : (keysOf (allChains s.buckets)).Nodup) (k : String) :
    s.GetWithHash k (hash k) = findKey (allChains s.buckets) k := by
  have hi : hash k % s.bucketsLen < s.buckets.length := by
    rw [← hlen]
    exact Nat.mod_lt _ hpos
  rw [Segment.GetWithHash, Bucket.Get]
  cases hfb : findKey (s.buckets.getD (hash k % s.bucketsLen) ⟨[]⟩).chain k with
  | some p =>
    obtain ⟨hmem, hkey⟩ := findKey_eq_some hfb
    exact (findKey_of_mem_nodup hnd (mem_allChains_of_mem_chain hi hmem) hkey).symm
  | none =>
    refine ((findKey_eq_none_iff _ _).mpr ?_).symm
    intro p hp hpk
    obtain ⟨j, hj, hmem⟩ := mem_allChains hp
    have hj2 := hwfB j hj p hmem
    have hji : j = hash k % s.bucketsLen := by
      rw [← hj2.1, hj2.2, hpk]
    rw [hji] at hmem
    rw [findKey_eq_none_iff] at hfb
    exact hfb p hmem hpk

theorem Put_default_spec (s : Segment MyPairRedistributor α) (hwf : s.WF)
    (k : String) (v : α) :
    (Segment.Put defaultPolicy s ⟨k, hash k, some v⟩).1.WF ∧
      (Segment.Put defaultPolicy s ⟨k, hash k, some v⟩).2.2 = none ∧
      findKey (allChains (Segment.Put defaultPolicy s ⟨k, hash k, some v⟩).1.buckets) k =
        some ⟨k, hash k, some v⟩ := by
  obtain ⟨hlen, hpos, hwfB, hnd⟩ := hwf
  have hi : hash k % s.bucketsLen < s.buckets.length := by
    rw [← hlen]
    exact Nat.mod_lt _ hpos
  by_cases hck : containsKey (s.buckets.getD (hash k % s.bucketsLen) ⟨[]⟩).chain k
  · -- the key is present: in-place element replacement, not new
    have hput : (s.buckets.getD (hash k % s.bucketsLen) ⟨[]⟩).Put ⟨k, hash k, some v⟩ =
        (⟨replaceKey (s.buckets.getD (hash k % s.bucketsLen) ⟨[]⟩).chain k (some v)⟩,
          false, none) := by
      rw [Bucket.Put, if_pos hck]
    rw [Segment.Put]
    dsimp only
    rw [hput]
    dsimp only
    simp only [Bool.false_eq_true, if_false]
    obtain ⟨q, hqmem, hqk, hqfind⟩ :=
      findKey_replaceKey_self (l := (s.buckets.getD (hash k % s.bucketsLen) ⟨[]⟩).chain)
        (e := some v) hck
    have hq2 := hwfB (hash k % s.bucketsLen) hi q hqmem
    have hpair : (⟨q.key, q.hash, some v⟩ : Pair α) = ⟨k, hash k, some v⟩ := by
      rw [hqk, hq2.2, hqk]
    have hknodup : (keysOf (allChains (listUpdate s.buckets (hash k % s.bucketsLen)
        (fun _ => ⟨replaceKey (s.buckets.getD (hash k % s.bucketsLen) ⟨[]⟩).chain
          k (some v)⟩)))).Nodup := by
      rw [allChains_update_congr_keys hi (by rw [keysOf_replaceKey])]
      exact hnd
    refine ⟨⟨hlen.trans (listUpdate_length _ _ _).symm, hpos, ?_, hknodup⟩, by trivial, ?_⟩
    · refine bucketsWF_update hwfB hi ?_
      refine replaceKey_pres _ (hwfB (hash k % s.bucketsLen) hi) ?_
      intro q hq
      exact hq
    · refine findKey_of_mem_nodup hknodup ?_ rfl
      rw [← hpair]
      refine mem_allChains_of_mem_chain (i := hash k % s.bucketsLen)
        (by rw [listUpdate_length]; exact hi) ?_
      rw [getD_listUpdate_self _ _ _ _ hi]
      exact (findKey_eq_some hqfind).1
  · -- the key is absent: prepend as the new head, then redistribute
    have hput : (s.buckets.getD (hash k % s.bucketsLen) ⟨[]⟩).Put ⟨k, hash k, some v⟩ =
        (⟨(⟨k, hash k, some v⟩ : Pair α) ::
          (s.buckets.getD (hash k % s.bucketsLen) ⟨[]⟩).chain⟩, true, none) := by
      rw [Bucket.Put, if_neg hck]
    rw [Segment.Put]
    dsimp only
    rw [hput]
    dsimp only
    simp only [if_true]
    set s2 : Segment MyPairRedistributor α :=
      { s with
          buckets := listUpdate s.buckets (hash k % s.bucketsLen)
            (fun _ => ⟨(⟨k, hash k, some v⟩ : Pair α) ::
              (s.buckets.getD (hash k % s.bucketsLen) ⟨[]⟩).chain⟩)
          pairTotal := (s.pairTotal + 1) % UINT64_MOD } with hs2
    have hlen2 : s2.bucketsLen = s2.buckets.length := by
      rw [hs2]
      dsimp only
      rw [listUpdate_length]
      exact hlen
    have hpos2 : 0 < s2.bucketsLen := hpos
    have hwfB2 : bucketsWF s2.bucketsLen s2.buckets := by
      rw [hs2]
      dsimp only
      refine bucketsWF_update hwfB hi ?_
      intro p hp
      rcases List.mem_cons.mp hp with hpq | hpb
      · subst hpq
        exact ⟨rfl, rfl⟩
      · exact hwfB (hash k % s.bucketsLen) hi p hpb
    have hperm : (allChains s2.buckets).Perm
        ((⟨k, hash k, some v⟩ : Pair α) :: allChains s.buckets) := by
      rw [hs2]
      dsimp only
      exact allChains_update_cons hi rfl
    have hknotin : k ∉ keysOf (allChains s.buckets) := by
      intro hk
      obtain ⟨p, hpmem, hpk⟩ := List.mem_map.mp hk
      obtain ⟨j, hj, hmem⟩ := mem_allChains hpmem
      have hj2 := hwfB j hj p hmem
      have hji : j = hash k % s.bucketsLen := by
        rw [← hj2.1, hj2.2, hpk]
      rw [hji] at hmem
      have hck2 : containsKey (s.buckets.getD (hash k % s.bucketsLen) ⟨[]⟩).chain k
          = false := by
        simpa using hck
      rw [containsKey_eq_false_iff] at hck2
      exact hck2 p hmem hpk
    have hnd2 : (keysOf (allChains s2.buckets)).Nodup := by
      refine ((hperm.map Pair.key).symm).nodup ?_
      simp only [List.map_cons]
      exact List.nodup_cons.mpr ⟨hknotin, hnd⟩
    have hmem2 : (⟨k, hash k, some v⟩ : Pair α) ∈ allChains s2.buckets :=
      hperm.symm.subset (List.mem_cons_self _ _)
    have hfind2 : findKey (allChains s2.buckets) k = some ⟨k, hash k, some v⟩ :=
      findKey_of_mem_nodup hnd2 hmem2 rfl
    obtain ⟨hwf3, hperm3, _, _⟩ :=
      redistribute_default_spec s2 hlen2 hpos2 hwfB2 hnd2
        ((s.pairTotal + 1) % UINT64_MOD)
        ((⟨k, hash k, some v⟩ : Pair α) ::
          (s.buckets.getD (hash k % s.bucketsLen) ⟨[]⟩).chain).length
    refine ⟨hwf3, by trivial, ?_⟩
    exact (findKey_perm hwf3.2.2.2 hperm3).trans hfind2

/-! ### Map-level lemmas -/

theorem findSegmentIndex_zero (c keyHash : Nat) : findSegmentIndex c keyHash = 0 := by
  rw [findSegmentIndex]
  split
  · rfl
  · dsimp only
    split <;> simp

theorem findSegmentIndex_lt (c : Nat) (h : 0 < c) (keyHash : Nat) :
    findSegmentIndex c keyHash < c := by
  rw [findSegmentIndex_zero]
  exact h

theorem put_get_spec (m : ConcurrentMap MyPairRedistributor α) (hwf : m.WF)
    (k : String) (v : α) :
    (ConcurrentMap.Put defaultPolicy m k (some v)).2.2 = none ∧
      (ConcurrentMap.Put defaultPolicy m k (some v)).1.Get k = some v := by
  obtain ⟨hc, hslen, hsegs⟩ := hwf
  have hidxlt : findSegmentIndex m.concurrency (hash k) < m.segments.length := by
    rw [hslen]
    exact findSegmentIndex_lt _ hc _
  have hsWF := hsegs _ (getD_mem default hidxlt)
  have hps := Put_default_spec (m.segments.getD (findSegmentIndex m.concurrency (hash k))
    default) hsWF k v
  obtain ⟨⟨hlen3, hpos3, hwfB3, hnd3⟩, herr3, hfind3⟩ := hps
  rw [ConcurrentMap.Put]
  dsimp only [newPair]
  refine ⟨herr3, ?_⟩
  rw [ConcurrentMap.Get]
  dsimp only
  rw [getD_listUpdate_self _ _ _ _ hidxlt]
  rw [GetWithHash_eq_findKey _ hlen3 hpos3 hwfB3 hnd3 k, hfind3]

/-! ### Branch characterizations of the default redistributor -/

theorem reinsertPairs_length (pairs : List (Pair α)) (n : Nat) :
    ∀ B : List (Bucket α), (reinsertPairs pairs n B).length = B.length := by
  induction pairs with
  | nil => intro B; rfl
  | cons q qs ih =>
    intro B
    have hstep : reinsertPairs (q :: qs) n B =
        reinsertPairs qs n (listUpdate B (q.hash % n) (fun b => (b.Put q).1)) := rfl
    rw [hstep, ih, listUpdate_length]

theorem redistributeTo_resize_shape (pr : MyPairRedistributor) (newNumber : Nat)
    (B : List (Bucket α)) (hne : newNumber ≠ B.length) :
    (redistributeTo pr newNumber B).1 =
        { pr with overweightBucketCount := 0, emptyBucketCount := 0 } ∧
      (redistributeTo pr newNumber B).2.2 = true ∧
      ((redistributeTo pr newNumber B).2.1.getD []).length = newNumber := by
  rw [redistributeTo]
  simp only [if_neg hne]
  refine ⟨by trivial, by trivial, ?_⟩
  dsimp only
  rw [Option.getD_some, reinsertPairs_length]
  split
  · simp only [List.length_append, List.length_map, List.length_replicate]
    omega
  · simp

theorem checkBucketStatus_not_underweight (pr : MyPairRedistributor) (pt bs : Nat) :
    (pr.CheckBucketStatus pt bs).2 ≠ .underweight := by
  rw [MyPairRedistributor.CheckBucketStatus]
  split
  · exact fun h => BucketStatus.noConfusion h
  · split
    · exact fun h => BucketStatus.noConfusion h
    · exact fun h => BucketStatus.noConfusion h

theorem redistribe_counter_cases (pr : MyPairRedistributor) (st : BucketStatus)
    (B : List (Bucket α)) :
    ((pr.Redistribe st B).2.2 = true →
      (pr.Redistribe st B).1 =
        { pr with overweightBucketCount := 0, emptyBucketCount := 0 }) ∧
    ((pr.Redistribe st B).2.2 = false →
      (pr.Redistribe st B).1 = pr ∨
        (B.length = 0 ∧ (pr.Redistribe st B).1 =
          { pr with overweightBucketCount := 0, emptyBucketCount := 0 })) := by
  cases st with
  | normal =>
    exact ⟨fun h => by simp [MyPairRedistributor.Redistribe] at h, fun _ => Or.inl rfl⟩
  | overweight =>
    rw [MyPairRedistributor.Redistribe]
    split
    · exact ⟨fun h => by simp at h, fun _ => Or.inl rfl⟩
    · by_cases h0 : B.length * 2 = B.length
      · rw [redistributeTo, if_pos h0]
        exact ⟨fun h => by simp at h, fun _ => Or.inr ⟨by omega, rfl⟩⟩
      · obtain ⟨h1, h2, _⟩ := redistributeTo_resize_shape pr (B.length * 2) B h0
        exact ⟨fun _ => h1, fun h => by rw [h2] at h; simp at h⟩
  | underweight =>
    rw [MyPairRedistributor.Redistribe]
    split
    · exact ⟨fun h => by simp at h, fun _ => Or.inl rfl⟩
    · rename_i hcond
      have h100 : 100 ≤ B.length := by
        by_contra hlt
        exact hcond (Or.inl (by omega))
      have hif : (if B.length / 2 < 2 then 2 else B.length / 2) = B.length / 2 :=
        if_neg (by omega)
      dsimp only
      rw [hif]
      have hne : B.length / 2 ≠ B.length := by omega
      obtain ⟨h1, h2, _⟩ := redistributeTo_resize_shape pr (B.length / 2) B hne
      exact ⟨fun _ => h1, fun h => by rw [h2] at h; simp at h⟩

theorem redistribe_hysteresis_cases (pr : MyPairRedistributor) (st : BucketStatus)
    (B : List (Bucket α)) (how : pr.overweightBucketCount < 4611686018427387904)
    (hemp : pr.emptyBucketCount < 4611686018427387904) :
    ((pr.Redistribe st B).2.2 = true ↔
      (st = .overweight ∧ B.length ≤ pr.overweightBucketCount * 4 ∧ 0 < B.length) ∨
      (st = .underweight ∧ 100 ≤ B.length ∧ B.length ≤ pr.emptyBucketCount * 4)) ∧
    (st = .overweight → (pr.Redistribe st B).2.2 = true →
      ((pr.Redistribe st B).2.1.getD []).length = B.length * 2) ∧
    (st = .underweight → (pr.Redistribe st B).2.2 = true →
      ((pr.Redistribe st B).2.1.getD []).length =
        (if B.length / 2 < 2 then 2 else B.length / 2)) ∧
    ((pr.Redistribe st B).2.2 = false → (pr.Redistribe st B).2.1 = none) := by
  have hmow : pr.overweightBucketCount * 4 % UINT64_MOD = pr.overweightBucketCount * 4 :=
    Nat.mod_eq_of_lt (by
      have : pr.overweightBucketCount * 4 < 4611686018427387904 * 4 := by omega
      rw [UINT64_MOD]
      omega)
  have hmem : pr.emptyBucketCount * 4 % UINT64_MOD = pr.emptyBucketCount * 4 :=
    Nat.mod_eq_of_lt (by
      have : pr.emptyBucketCount * 4 < 4611686018427387904 * 4 := by omega
      rw [UINT64_MOD]
      omega)
  cases st with
  | normal =>
    refine ⟨?_, by simp, by simp, fun _ => rfl⟩
    simp [MyPairRedistributor.Redistribe]
  | overweight =>
    rw [MyPairRedistributor.Redistribe]
    rw [hmow]
    split
    · rename_i hlt
      refine ⟨?_, ?_, by simp, fun _ => rfl⟩
      · constructor
        · intro h
          simp at h
        · rintro (⟨-, hle, -⟩ | ⟨hun, -⟩)
          · omega
          · cases hun
      · intro _ h
        simp at h
    · rename_i hge
      by_cases h0 : B.length = 0
      · rw [redistributeTo, if_pos (by omega)]
        refine ⟨?_, ?_, by simp, fun _ => rfl⟩
        · constructor
          · intro h; simp at h
          · rintro (⟨-, -, hpos⟩ | ⟨hun, -⟩)
            · omega
            · cases hun
        · intro _ h; simp at h
      · obtain ⟨-, h2, h3⟩ := redistributeTo_resize_shape pr (B.length * 2) B (by omega)
        refine ⟨?_, fun _ _ => h3, by simp, ?_⟩
        · rw [h2]
          constructor
          · intro _
            exact Or.inl ⟨rfl, by omega, by omega⟩
          · intro _; rfl
        · intro h; rw [h2] at h; simp at h
  | underweight =>
    rw [MyPairRedistributor.Redistribe]
    dsimp only
    rw [hmem]
    split
    · rename_i hcond
      refine ⟨?_, by simp, ?_, fun _ => rfl⟩
      · constructor
        · intro h; simp at h
        · rintro (⟨hov, -⟩ | ⟨-, h100, hle⟩)
          · cases hov
          · omega
      · intro _ h; simp at h
    · rename_i hcond
      have h100 : 100 ≤ B.length := by
        by_contra hlt
        exact hcond (Or.inl (by omega))
      have hif : (if B.length / 2 < 2 then 2 else B.length / 2) = B.length / 2 :=
        if_neg (by omega)
      rw [hif]
      obtain ⟨-, h2, h3⟩ := redistributeTo_resize_shape pr (B.length / 2) B (by omega)
      refine ⟨?_, by simp, fun _ _ => by rw [h3], ?_⟩
      · rw [h2]
        constructor
        · intro _
          exact Or.inr ⟨rfl, h100, by omega⟩
        · intro _; rfl
      · intro h; rw [h2] at h; simp at h

/-! ### Bucket-count monotonicity under the default policy -/

theorem redistribe_overweight_shape (pr : MyPairRedistributor) (B : List (Bucket α)) :
    ((pr.Redistribe .overweight B).2.2 = false ∧ (pr.Redistribe .overweight B).2.1 = none) ∨
      ((pr.Redistribe .overweight B).2.2 = true ∧
        ((pr.Redistribe .overweight B).2.1.getD []).length = B.length * 2) := by
  rw [MyPairRedistributor.Redistribe]
  split
  · exact Or.inl ⟨rfl, rfl⟩
  · by_cases h0 : B.length * 2 = B.length
    · rw [redistributeTo, if_pos h0]
      exact Or.inl ⟨rfl, rfl⟩
    · obtain ⟨-, h2, h3⟩ := redistributeTo_resize_shape pr (B.length * 2) B h0
      exact Or.inr ⟨h2, h3⟩

theorem redistribute_default_mono (s : Segment MyPairRedistributor α)
    (hlen : s.bucketsLen = s.buckets.length) (pt bs : Nat) :
    s.bucketsLen ≤ (Segment.redistribute defaultPolicy s pt bs).1.bucketsLen ∧
      (Segment.redistribute defaultPolicy s pt bs).1.bucketsLen =
        (Segment.redistribute defaultPolicy s pt bs).1.buckets.length := by
  rcases hcb : (s.prState.UpdateThreshold pt s.bucketsLen).CheckBucketStatus pt bs with
    ⟨st2, status⟩
  have hst : status ≠ .underweight := by
    have hcs := checkBucketStatus_not_underweight
      (s.prState.UpdateThreshold pt s.bucketsLen) pt bs
    rw [hcb] at hcs
    exact hcs
  rcases hrb : st2.Redistribe status s.buckets with ⟨st3, nb, ch⟩
  simp only [Segment.redistribute, defaultPolicy, hcb, hrb]
  cases status with
  | underweight => exact absurd rfl hst
  | normal =>
    have hn : st2.Redistribe BucketStatus.normal s.buckets = (st2, none, false) := rfl
    rw [hn] at hrb
    cases hrb
    simp only [Bool.false_eq_true, if_false]
    exact ⟨le_refl _, hlen⟩
  | overweight =>
    rcases redistribe_overweight_shape st2 s.buckets with ⟨hf, -⟩ | ⟨ht, hln⟩ <;>
      rw [hrb] at * <;> dsimp only at *
    · rw [hf]
      simp only [Bool.false_eq_true, if_false]
      exact ⟨le_refl _, hlen⟩
    · rw [ht]
      simp only [if_true]
      refine ⟨?_, by trivial⟩
      rw [hln, hlen]
      omega

theorem segPut_mono (s : Segment MyPairRedistributor α)
    (hlen : s.bucketsLen = s.buckets.length) (p : Pair α) :
    s.bucketsLen ≤ (Segment.Put defaultPolicy s p).1.bucketsLen ∧
      (Segment.Put defaultPolicy s p).1.bucketsLen =
        (Segment.Put defaultPolicy s p).1.buckets.length := by
  rw [Segment.Put]
  dsimp only
  split
  · dsimp only
    set s2 : Segment MyPairRedistributor α :=
      { s with
          buckets := listUpdate s.buckets (p.hash % s.bucketsLen)
            (fun _ => ((s.buckets.getD (p.hash % s.bucketsLen) ⟨[]⟩).Put p).1)
          pairTotal := (s.pairTotal + 1) % UINT64_MOD } with hs2
    have h2 : s2.bucketsLen = s2.buckets.length := by
      rw [hs2]
      dsimp only
      rw [listUpdate_length]
      exact hlen
    exact redistribute_default_mono s2 h2 _ _
  · exact ⟨le_refl _, by rw [listUpdate_length]; exact hlen⟩

theorem segDelete_mono (s : Segment MyPairRedistributor α)
    (hlen : s.bucketsLen = s.buckets.length) (k : String) :
    s.bucketsLen ≤ (Segment.Delete defaultPolicy s k).1.bucketsLen ∧
      (Segment.Delete defaultPolicy s k).1.bucketsLen =
        (Segment.Delete defaultPolicy s k).1.buckets.length := by
  rw [Segment.Delete]
  dsimp only
  split
  · dsimp only
    set s2 : Segment MyPairRedistributor α :=
      { s with
          buckets := listUpdate s.buckets (hash k % s.bucketsLen)
            (fun _ => ((s.buckets.getD (hash k % s.bucketsLen) ⟨[]⟩).Delete k).1)
          pairTotal := (s.pairTotal + (UINT64_MOD - 1)) % UINT64_MOD } with hs2
    have h2 : s2.bucketsLen = s2.buckets.length := by
      rw [hs2]
      dsimp only
      rw [listUpdate_length]
      exact hlen
    exact redistribute_default_mono s2 h2 _ _
  · exact ⟨le_refl _, by rw [listUpdate_length]; exact hlen⟩

theorem runSegOps_mono (ops : List (SegOp α)) :
    ∀ s : Segment MyPairRedistributor α, s.bucketsLen = s.buckets.length →
      s.bucketsLen ≤ (runSegOps s ops).bucketsLen ∧
        (runSegOps s ops).bucketsLen = (runSegOps s ops).buckets.length := by
  induction ops with
  | nil => exact fun s h => ⟨le_refl _, h⟩
  | cons op rest ih =>
    intro s h
    cases op with
    | put k v =>
      have hstep : runSegOps s (.put k v :: rest) =
          runSegOps (Segment.Put defaultPolicy s ⟨k, hash k, some v⟩).1 rest := rfl
      obtain ⟨h1, h2⟩ := segPut_mono s h ⟨k, hash k, some v⟩
      obtain ⟨h3, h4⟩ := ih (Segment.Put defaultPolicy s ⟨k, hash k, some v⟩).1 h2
      rw [hstep]
      exact ⟨h1.trans h3, h4⟩
    | del k =>
      have hstep : runSegOps s (.del k :: rest) =
          runSegOps (Segment.Delete defaultPolicy s k).1 rest := rfl
      obtain ⟨h1, h2⟩ := segDelete_mono s h k
      obtain ⟨h3, h4⟩ := ih (Segment.Delete defaultPolicy s k).1 h2
      rw [hstep]
      exact ⟨h1.trans h3, h4⟩

/-! ### Well-formedness preservation -/

theorem listUpdate_ge {β : Type} (l : List β) (i : Nat) (f : β → β)
    (h : l.length ≤ i) : listUpdate l i f = l := by
  induction l generalizing i with
  | nil => rfl
  | cons x xs ih =>
    cases i with
    | zero => simp at h
    | succ n =>
      rw [listUpdate, ih n (by simpa using h)]

theorem mem_listUpdate {β : Type} (d : β) {l : List β} {i : Nat} {f : β → β}
    {x : β} (hx : x ∈ listUpdate l i f) :
    x ∈ l ∨ (i < l.length ∧ x = f (l.getD i d)) := by
  by_cases hi : i < l.length
  · obtain ⟨B1, B2, hB1, hdec, hupd⟩ := listUpdate_split d l i hi
    rw [hupd f] at hx
    rcases List.mem_append.mp hx with h1 | h2
    · refine Or.inl ?_
      rw [hdec]
      exact List.mem_append.mpr (Or.inl h1)
    · rcases List.mem_cons.mp h2 with h3 | h4
      · exact Or.inr ⟨hi, h3⟩
      · refine Or.inl ?_
        rw [hdec]
        exact List.mem_append.mpr (Or.inr (List.mem_cons_of_mem _ h4))
  · rw [listUpdate_ge l i f (by omega)] at hx
    exact Or.inl hx

theorem newSegmentWith_WF (bucketNumber : Nat) (hb : 0 < bucketNumber)
    (prState : σ) : (newSegmentWith (α := α) bucketNumber prState).WF := by
  refine ⟨by simp [newSegmentWith], by simpa [newSegmentWith] using hb, ?_, ?_⟩
  · intro i hi p hp
    rw [newSegmentWith] at hp
    dsimp only at hp
    rw [List.eq_of_mem_replicate (getD_mem _ (by simpa [newSegmentWith] using hi))] at hp
    simp at hp
  · rw [newSegmentWith]
    dsimp only
    rw [allChains_eq_nil (fun b hb => by rw [List.eq_of_mem_replicate hb])]
    exact List.nodup_nil

theorem mkConcurrentMap_WF (c : Nat) (hc : 0 < c) : (mkConcurrentMap α c).WF := by
  refine ⟨hc, by simp [mkConcurrentMap], ?_⟩
  intro s hs
  rw [mkConcurrentMap] at hs
  dsimp only at hs
  rw [List.eq_of_mem_replicate hs]
  exact newSegmentWith_WF DEFAULT_BUCKET_NUMBER (by rw [DEFAULT_BUCKET_NUMBER]; omega) _

theorem segDelete_default_WF (s : Segment MyPairRedistributor α) (hwf : s.WF)
    (k : String) : (Segment.Delete defaultPolicy s k).1.WF := by
  obtain ⟨hlen, hpos, hwfB, hnd⟩ := hwf
  have hi : hash k % s.bucketsLen < s.buckets.length := by
    rw [← hlen]
    exact Nat.mod_lt _ hpos
  by_cases hck : containsKey (s.buckets.getD (hash k % s.bucketsLen) ⟨[]⟩).chain k
  · have hdel : (s.buckets.getD (hash k % s.bucketsLen) ⟨[]⟩).Delete k =
        (⟨removeKey (s.buckets.getD (hash k % s.bucketsLen) ⟨[]⟩).chain k⟩, true) := by
      rw [Bucket.Delete, if_pos hck]
    rw [Segment.Delete]
    dsimp only
    rw [hdel]
    dsimp only
    simp only [if_true]
    set s2 : Segment MyPairRedistributor α :=
      { s with
          buckets := listUpdate s.buckets (hash k % s.bucketsLen)
            (fun _ => ⟨removeKey (s.buckets.getD (hash k % s.bucketsLen) ⟨[]⟩).chain k⟩)
          pairTotal := (s.pairTotal + (UINT64_MOD - 1)) % UINT64_MOD } with hs2
    have hsubchain : (removeKey (s.buckets.getD (hash k % s.bucketsLen) ⟨[]⟩).chain
        k).Sublist (s.buckets.getD (hash k % s.bucketsLen) ⟨[]⟩).chain :=
      removeKey_sublist _ _
    have hlen2 : s2.bucketsLen = s2.buckets.length := by
      rw [hs2]
      dsimp only
      rw [listUpdate_length]
      exact hlen
    have hwfB2 : bucketsWF s2.bucketsLen s2.buckets := by
      rw [hs2]
      dsimp only
      refine bucketsWF_update hwfB hi ?_
      intro p hp
      exact hwfB (hash k % s.bucketsLen) hi p (hsubchain.subset hp)
    have hchainsub : (allChains s2.buckets).Sublist (allChains s.buckets) := by
      rw [hs2]
      dsimp only
      obtain ⟨B1, B2, hB1, hdec, hupd⟩ :=
        listUpdate_split ⟨[]⟩ s.buckets (hash k % s.bucketsLen) hi
      rw [hupd]
      conv_rhs => rw [hdec]
      rw [allChains_append, allChains_cons, allChains_append, allChains_cons]
      exact (hsubchain.append_right _).append_left _
    have hnd2 : (keysOf (allChains s2.buckets)).Nodup :=
      (hchainsub.map Pair.key).nodup hnd
    exact (redistribute_default_spec s2 hlen2 hpos hwfB2 hnd2 _ _).1
  · have hdel : (s.buckets.getD (hash k % s.bucketsLen) ⟨[]⟩).Delete k =
        (s.buckets.getD (hash k % s.bucketsLen) ⟨[]⟩, false) := by
      rw [Bucket.Delete, if_neg hck]
    rw [Segment.Delete]
    dsimp only
    rw [hdel]
    dsimp only
    simp only [Bool.false_eq_true, if_false]
    refine ⟨hlen.trans (listUpdate_length _ _ _).symm, hpos, ?_, ?_⟩
    · exact bucketsWF_update hwfB hi (hwfB (hash k % s.bucketsLen) hi)
    · rw [allChains_update_congr_keys hi rfl]
      exact hnd

theorem mapPut_preserves_WF (m : ConcurrentMap MyPairRedistributor α)
    (hwf : m.WF) (k : String) (e : Option α) :
    (ConcurrentMap.Put defaultPolicy m k e).1.WF := by
  obtain ⟨hc, hslen, hsegs⟩ := hwf
  cases e with
  | none => exact ⟨hc, hslen, hsegs⟩
  | some v =>
    have hidxlt : findSegmentIndex m.concurrency (hash k) < m.segments.length := by
      rw [hslen]
      exact findSegmentIndex_lt _ hc _
    rw [ConcurrentMap.Put]
    dsimp only [newPair]
    refine ⟨hc, by rw [listUpdate_length]; exact hslen, ?_⟩
    intro s hs
    rcases mem_listUpdate default hs with hold | ⟨-, hnew⟩
    · exact hsegs s hold
    · rw [hnew]
      exact (Put_default_spec _ (hsegs _ (getD_mem default hidxlt)) k v).1

theorem mapDelete_preserves_WF (m : ConcurrentMap MyPairRedistributor α)
    (hwf : m.WF) (k : String) :
    (ConcurrentMap.Delete defaultPolicy m k).1.WF := by
  obtain ⟨hc, hslen, hsegs⟩ := hwf
  have hidxlt : findSegmentIndex m.concurrency (hash k) < m.segments.length := by
    rw [hslen]
    exact findSegmentIndex_lt _ hc _
  rw [ConcurrentMap.Delete]
  have hmem : ∀ s, s ∈ listUpdate m.segments (findSegmentIndex m.concurrency (hash k))
      (fun _ => (Segment.Delete defaultPolicy
        (m.segments.getD (findSegmentIndex m.concurrency (hash k)) default) k).1) → s.WF := by
    intro s hs
    rcases mem_listUpdate default hs with hold | ⟨-, hnew⟩
    · exact hsegs s hold
    · rw [hnew]
      exact segDelete_default_WF _ (hsegs _ (getD_mem default hidxlt)) k
  split
  · exact ⟨hc, by rw [listUpdate_length]; exact hslen, hmem⟩
  · exact ⟨hc, by rw [listUpdate_length]; exact hslen, hmem⟩

/-! ### Claim theorems -/

/-- C1: the claim says the shard index is derived deterministically from the
key's actual hash value, lies in `[0, c)`, and is computed modulo `c` so that
for `c > 1` every segment is reachable.  The code instead computes the index
from the zero-initialized local `keyHash32` (never from `keyHash`) and
reduces modulo `concurrency - 1`: the selected index is 0 for every
concurrency and every hash, so for `c > 1` only segment 0 is ever used and
the other segments are unreachable. -/
theorem findSegmentIndex_always_zero :
    ∀ (concurrency keyHash : Nat), findSegmentIndex concurrency keyHash = 0 :=
  findSegmentIndex_zero

/-- C2: with a redistribution policy whose `UpdateThreshold` panics, `Put` of
a fresh pair on a fresh 16-bucket segment still succeeds and reports its own
result, and `segment.redistribute` does convert the recovered panic into a
`PairRedistributorError` — but `Put` returns a nil error because the call
`_ = s.redistribute(...)` discards it, so the failure is not surfaced to the
caller as the claim states. -/
theorem segmentPut_discards_redistributor_error :
    (Segment.Put faultyPolicy (newSegmentWith (α := Nat) 16 ())
        (⟨"a", hash "a", some 1⟩ : Pair Nat)).2 = (true, none) ∧
      (Segment.redistribute faultyPolicy (newSegmentWith (α := Nat) 16 ()) 1 1).2 =
        some (newPairRedistributorError "boom") := by
  decide

/-- C3: on a well-formed map with the default redistribution policy, a put of
key `k` with a present value `v` succeeds with no error, and a subsequent get
of `k` returns exactly `v`. -/
theorem put_then_get_returns_value (m : ConcurrentMap MyPairRedistributor α)
    (hwf : m.WF) (k : String) (v : α) :
    (ConcurrentMap.Put defaultPolicy m k (some v)).2.2 = none ∧
      (ConcurrentMap.Put defaultPolicy m k (some v)).1.Get k = some v :=
  put_get_spec m hwf k v

/-- C3 witness: the round-trip theorem applied to the concrete fresh 4-shard
map at key "a" and value 5. -/
theorem put_then_get_returns_value_witness :
    (mkConcurrentMap Nat 4).WF ∧
      ((ConcurrentMap.Put defaultPolicy (mkConcurrentMap Nat 4) "a"
          (some 5)).2.2 = none ∧
        (ConcurrentMap.Put defaultPolicy (mkConcurrentMap Nat 4) "a"
          (some 5)).1.Get "a" = some 5) :=
  ⟨by decide, put_then_get_returns_value (mkConcurrentMap Nat 4) (by decide) "a" 5⟩

/-- C4: on a map constructed with shard count 4, the sequential run
put("a",1); put("a",2); get("a"); delete("a"); get("a"); len() yields exactly
(true, nil), (false, nil), 2, true, nil, 0 in that order. -/
theorem concrete_scenario_spec :
    (ConcurrentMap.Put defaultPolicy (mkConcurrentMap Nat 4) "a" (some 1)).2 =
        (true, none) ∧
      (ConcurrentMap.Put defaultPolicy
          (ConcurrentMap.Put defaultPolicy (mkConcurrentMap Nat 4) "a" (some 1)).1
          "a" (some 2)).2 = (false, none) ∧
      (ConcurrentMap.Put defaultPolicy
          (ConcurrentMap.Put defaultPolicy (mkConcurrentMap Nat 4) "a" (some 1)).1
          "a" (some 2)).1.Get "a" = some 2 ∧
      (ConcurrentMap.Delete defaultPolicy
          (ConcurrentMap.Put defaultPolicy
            (ConcurrentMap.Put defaultPolicy (mkConcurrentMap Nat 4) "a" (some 1)).1
            "a" (some 2)).1 "a").2 = true ∧
      (ConcurrentMap.Delete defaultPolicy
          (ConcurrentMap.Put defaultPolicy
            (ConcurrentMap.Put defaultPolicy (mkConcurrentMap Nat 4) "a" (some 1)).1
            "a" (some 2)).1 "a").1.Get "a" = none ∧
      (ConcurrentMap.Delete defaultPolicy
          (ConcurrentMap.Put defaultPolicy
            (ConcurrentMap.Put defaultPolicy (mkConcurrentMap Nat 4) "a" (some 1)).1
            "a" (some 2)).1 "a").1.Len = 0 := by
  decide

/-- C5 counterexample: a redistributor with `overweightBucketCount = 1` on
eight buckets and overweight status fails the hysteresis test
(`1 * 4 < 8`), returns unchanged, and keeps its counter at 1 — refuting the
claim that both counters are zero after every `Redistribe` call. -/
theorem redistribe_counters_counterexample :
    ¬ ((((⟨DEFAULT_BUCKET_LOAD_FACTOR, 75, 1, 0⟩ : MyPairRedistributor).Redistribe
          .overweight (List.replicate 8 (⟨[]⟩ : Bucket Nat))).1.overweightBucketCount = 0)
        ∧ (((⟨DEFAULT_BUCKET_LOAD_FACTOR, 75, 1, 0⟩ : MyPairRedistributor).Redistribe
          .overweight (List.replicate 8 (⟨[]⟩ : Bucket Nat))).1.emptyBucketCount = 0)) := by
  decide

/-- C5 (amended): `Redistribe` resets both counters to zero exactly on the
branches that pass the hysteresis test — every resize, and the degenerate
hysteresis-passing case of an empty bucket array where the doubled count
equals the current one; on all early-return paths (Normal status, or failed
hysteresis) the redistributor state is left completely unchanged. -/
theorem redistribe_counters_reset_when_hysteresis (pr : MyPairRedistributor)
    (st : BucketStatus) (B : List (Bucket α)) :
    ((pr.Redistribe st B).2.2 = true →
      (pr.Redistribe st B).1 =
        { pr with overweightBucketCount := 0, emptyBucketCount := 0 }) ∧
    ((pr.Redistribe st B).2.2 = false →
      (pr.Redistribe st B).1 = pr ∨
        (B.length = 0 ∧ (pr.Redistribe st B).1 =
          { pr with overweightBucketCount := 0, emptyBucketCount := 0 })) :=
  redistribe_counter_cases pr st B

/-- C6: `Redistribe` reports a change exactly when hysteresis is satisfied:
on Overweight it doubles the bucket array only when
`overweightBucketCount * 4 ≥ currentBucketCount` (and the array is
non-empty), on Underweight it halves with a floor of two buckets only when
`currentBucketCount ≥ 100` and `emptyBucketCount * 4 ≥ currentBucketCount`,
and in every other case it reports unchanged with no bucket array.  The
counter bounds keep the wrapping `uint64` products `counter * 4` exact. -/
theorem redistribe_hysteresis (pr : MyPairRedistributor) (st : BucketStatus)
    (B : List (Bucket α)) (how : pr.overweightBucketCount < 4611686018427387904)
    (hemp : pr.emptyBucketCount < 4611686018427387904) :
    ((pr.Redistribe st B).2.2 = true ↔
      (st = .overweight ∧ B.length ≤ pr.overweightBucketCount * 4 ∧ 0 < B.length) ∨
      (st = .underweight ∧ 100 ≤ B.length ∧ B.length ≤ pr.emptyBucketCount * 4)) ∧
    (st = .overweight → (pr.Redistribe st B).2.2 = true →
      ((pr.Redistribe st B).2.1.getD []).length = B.length * 2) ∧
    (st = .underweight → (pr.Redistribe st B).2.2 = true →
      ((pr.Redistribe st B).2.1.getD []).length =
        (if B.length / 2 < 2 then 2 else B.length / 2)) ∧
    ((pr.Redistribe st B).2.2 = false → (pr.Redistribe st B).2.1 = none) :=
  redistribe_hysteresis_cases pr st B how hemp

/-- C6 witness: the hysteresis characterization applied to a concrete
overweight call on eight buckets with counter 2, whose hysteresis passes
(`2 * 4 ≥ 8`), so the call reports a change. -/
theorem redistribe_hysteresis_witness :
    ((⟨DEFAULT_BUCKET_LOAD_FACTOR, 75, 2, 0⟩ :
        MyPairRedistributor).overweightBucketCount < 4611686018427387904) ∧
    ((⟨DEFAULT_BUCKET_LOAD_FACTOR, 75, 2, 0⟩ :
        MyPairRedistributor).emptyBucketCount < 4611686018427387904) ∧
    (((⟨DEFAULT_BUCKET_LOAD_FACTOR, 75, 2, 0⟩ : MyPairRedistributor).Redistribe
        .overweight (List.replicate 8 (⟨[]⟩ : Bucket Nat))).2.2 = true) :=
  ⟨by decide, by decide,
    (redistribe_hysteresis (⟨DEFAULT_BUCKET_LOAD_FACTOR, 75, 2, 0⟩ : MyPairRedistributor)
        .overweight (List.replicate 8 (⟨[]⟩ : Bucket Nat)) (by decide)
        (by decide)).1.mpr (Or.inl ⟨rfl, by decide, by decide⟩)⟩

/-- C7: for every pair total and positive bucket count, `UpdateThreshold`
sets the upper threshold to `max(pairTotal / bucketNumber, 100) * loadFactor`
with integer division for the quotient and the non-negative product truncated
to an unsigned integer (its floor). -/
theorem updateThreshold_formula (pr : MyPairRedistributor)
    (pairTotal bucketNumber : Nat) (_hb : 0 < bucketNumber) :
    (pr.UpdateThreshold pairTotal bucketNumber).upperThreshold =
      (⌊((max (pairTotal / bucketNumber) 100 : Nat) : Rat) * pr.loadFactor⌋).toNat := by
  have havg : (if pairTotal / bucketNumber < 100 then 100 else pairTotal / bucketNumber)
      = max (pairTotal / bucketNumber) 100 := by
    rcases Nat.lt_or_ge (pairTotal / bucketNumber) 100 with hlt | hge
    · rw [if_pos hlt, Nat.max_eq_right (by omega)]
    · rw [if_neg (by omega), Nat.max_eq_left (by omega)]
  have hmain : ∀ a : Nat, (⌊(a : Rat) * pr.loadFactor⌋) =
      ((a : Int) * pr.loadFactor.num) / (pr.loadFactor.den : Int) := by
    intro a
    have hcast : (a : Rat) * pr.loadFactor =
        (((a : Int) * pr.loadFactor.num : Int) : Rat) / ((pr.loadFactor.den : Nat) : Rat) := by
      conv_lhs => rw [← Rat.num_div_den pr.loadFactor]
      push_cast
      ring
    rw [hcast, Rat.floor_intCast_div_natCast]
  rw [MyPairRedistributor.UpdateThreshold]
  dsimp only
  rw [havg, hmain]

/-- C7 witness: the threshold formula applied to a fresh default redistributor
state at pairTotal 1000 and bucketNumber 4 (quotient 250, threshold 187). -/
theorem updateThreshold_formula_witness :
    0 < 4 ∧
      ((⟨DEFAULT_BUCKET_LOAD_FACTOR, 0, 0, 0⟩ :
          MyPairRedistributor).UpdateThreshold 1000 4).upperThreshold =
        (⌊((max (1000 / 4) 100 : Nat) : Rat) *
          (⟨DEFAULT_BUCKET_LOAD_FACTOR, 0, 0, 0⟩ :
            MyPairRedistributor).loadFactor⌋).toNat :=
  ⟨by decide,
    updateThreshold_formula (⟨DEFAULT_BUCKET_LOAD_FACTOR, 0, 0, 0⟩ : MyPairRedistributor)
      1000 4 (by decide)⟩

/-- C8: putting an absent (nil) element fails synchronously with the
`IllegalParameterError` built by `newPair`, reports "not newly inserted", and
returns the map completely unchanged — no segment is touched and the global
counter keeps its value. -/
theorem put_nil_element_rejected [Inhabited σ] (pol : PairRedistributor σ α)
    (m : ConcurrentMap σ α) (k : String) :
    ConcurrentMap.Put pol m k none =
      (m, false, some (newIllegalParameterError "element is nil")) := rfl

/-- C9: `SetNext` with a nil pair stores a none link — the updated node's
`next` is none — and yet returns an `IllegalPairTypeError` instead of
succeeding, because the missing early return lets the failed type assertion
run after the store. -/
theorem setNext_nil_stores_none_but_errors (p : PairNode α) :
    (p.SetNext none).1.next = none ∧
      (p.SetNext none).2 = some (newIllegalPairTypeError "<nil>") := by
  cases p with
  | mk k h e n => exact ⟨rfl, rfl⟩

/-- C10: the default redistributor's `CheckBucketStatus` never reports the
Underweight status, so with the default policy the shrink branch of
`Redistribe` is unreachable and a segment's bucket count never decreases over
any sequence of Put and Delete operations. -/
theorem default_policy_never_shrinks (α : Type) :
    (∀ (pr : MyPairRedistributor) (pairTotal bucketSize : Nat),
      (pr.CheckBucketStatus pairTotal bucketSize).2 ≠ BucketStatus.underweight) ∧
    (∀ (s : Segment MyPairRedistributor α) (ops : List (SegOp α)),
      s.bucketsLen = s.buckets.length →
      s.bucketsLen ≤ (runSegOps s ops).bucketsLen) :=
  ⟨checkBucketStatus_not_underweight,
    fun s ops h => (runSegOps_mono ops s h).1⟩

/-- C10 witness: the monotonicity part applied to a fresh default segment and
a concrete put/delete run. -/
theorem default_policy_never_shrinks_witness :
    (newSegmentWith (α := Nat) 16
        (newDefaultPairRedistributor DEFAULT_BUCKET_LOAD_FACTOR 16)).bucketsLen =
      (newSegmentWith (α := Nat) 16
        (newDefaultPairRedistributor DEFAULT_BUCKET_LOAD_FACTOR 16)).buckets.length ∧
    (newSegmentWith (α := Nat) 16
        (newDefaultPairRedistributor DEFAULT_BUCKET_LOAD_FACTOR 16)).bucketsLen ≤
      (runSegOps (newSegmentWith (α := Nat) 16
          (newDefaultPairRedistributor DEFAULT_BUCKET_LOAD_FACTOR 16))
        [SegOp.put "a" 1, SegOp.del "a"]).bucketsLen :=
  ⟨by decide,
    (default_policy_never_shrinks Nat).2
      (newSegmentWith 16 (newDefaultPairRedistributor DEFAULT_BUCKET_LOAD_FACTOR 16))
      [SegOp.put "a" 1, SegOp.del "a"] (by decide)⟩

end Cmap
